import Mathlib

/-!
Shallow embedding of the letterboxed-rs solver (src/main.rs) and proofs of
the specification claims.

Modelling conventions:
- Rust `String` values (grid input, dictionary words) are modelled as
  `List Char`; `str::len` is modelled as the character count (the program
  works with letters, where byte length and character count agree).
- `HashSet<char>` values are modelled as `Finset Char` where only the set
  value matters (`all_letters`, the coverage check, `is_solution_valid`),
  and as canonical sorted duplicate-free `List Char` where the source
  materialises the set into a sorted `Vec<char>` (the search states).
- `HashMap<Side, Vec<char>>` is modelled as the association list produced
  by insertion order.  Iteration order of a Rust `HashMap` is unspecified,
  so every reader of the map (`get_side`) takes an explicit iteration
  order `ord : List Side`; the insertion order `sidesList` is the canonical
  choice, and theorems about iteration-order independence quantify over
  `ord`.
- The `BinaryHeap<Reverse<(usize, Vec<char>, Vec<String>)>>` is modelled as
  a list of states together with `heapMin`, which pops a least state under
  the lexicographic order that Rust derives for the tuple.  Equal
  priorities imply equal tuples, so this is deterministic exactly like the
  source.
- The search loop is given explicit fuel; `solve_bfs` runs it with fuel
  strictly larger than a decreasing measure of the heap, and the
  termination theorem shows this fuel is never exhausted.
- The `unwrap` calls in the expansion guard are modelled by an optional
  match that yields `false` when an `unwrap` would panic; the no-panic
  claim proves those branches are unreachable for states the search
  actually builds.
-/

/-- The four sides of the puzzle square (src/main.rs, enum Side). -/
inductive Side where
  | Top
  | Right
  | Bottom
  | Left
deriving DecidableEq, Repr

/-- Insertion order of the sides used by Grid::new (src/main.rs line 55). -/
def sidesList : List Side := [Side.Top, Side.Right, Side.Bottom, Side.Left]

/-- Default bound on the chain length (src/main.rs, DEFAULT_MAX_GUESSES). -/
def DEFAULT_MAX_GUESSES : Nat := 6

/-- Model of Rust `str::split(',')`: splitting an empty string yields one
empty group, and every comma starts a new group. -/
def splitComma : List Char → List (List Char)
  | [] => [[]]
  | c :: rest =>
    match splitComma rest with
    | [] => [[]]
    | g :: gs => if c = ',' then [] :: g :: gs else (c :: g) :: gs

/-- The puzzle state (src/main.rs, struct Grid).  `words` is the
side-to-letters map as an association list in insertion order. -/
structure Grid where
  words : List (Side × List Char)
  dictionary : List (List Char)
  all_letters : Finset Char
  max_guesses : Nat

/-- Grid::new (src/main.rs lines 54-71): zip the four sides with the
comma-separated groups (zip truncates to the shorter list), record every
letter of the zipped groups, store the dictionary unchanged, and default
`max_guesses` to 6. -/
def Grid.new (grid : List Char) (dictionary : List (List Char))
    (max_guesses : Option Nat) : Grid :=
  let pairs := sidesList.zip (splitComma grid)
  { words := pairs
    dictionary := dictionary
    all_letters := pairs.foldl (fun s p => s ∪ p.2.toFinset) ∅
    max_guesses := max_guesses.getD DEFAULT_MAX_GUESSES }

/-- Grid::is_valid (src/main.rs lines 73-77). -/
def Grid.is_valid (g : Grid) : Bool :=
  g.words.length == 4 && g.words.all (fun p => p.2.length == 3)
    && g.all_letters.card == 12

/-- Association-list lookup, modelling `HashMap::get`-style access of
`self.words` for one key. -/
def lookupSide : List (Side × List Char) → Side → Option (List Char)
  | [], _ => none
  | (s, ls) :: rest, q => if s = q then some ls else lookupSide rest q

/-- Iterating the entries of the side map in the order `ord` and returning
the first side whose letter list contains `letter`. -/
def getSideAux (words : List (Side × List Char)) (ord : List Side)
    (letter : Char) : Option Side :=
  match ord with
  | [] => none
  | s :: rest =>
    match lookupSide words s with
    | some ls =>
      if letter ∈ ls then some s else getSideAux words rest letter
    | none => getSideAux words rest letter

/-- Grid::get_side (src/main.rs lines 108-115): scan the map entries and
return the first side containing the letter.  `ord` is the iteration order
of the HashMap, which Rust leaves unspecified. -/
def Grid.get_side (g : Grid) (ord : List Side) (letter : Char) : Option Side :=
  getSideAux g.words ord letter

/-- The letter loop of Grid::is_valid_word (src/main.rs lines 96-105):
walk the word, tracking the side of the previous letter. -/
def validWordLoop (g : Grid) (ord : List Side) :
    Option Side → List Char → Bool
  | _, [] => true
  | lastSide, c :: rest =>
    match g.get_side ord c with
    | some side =>
      if some side = lastSide then false else validWordLoop g ord (some side) rest
    | none => false

/-- Grid::is_valid_word (src/main.rs lines 89-106). -/
def Grid.is_valid_word (g : Grid) (ord : List Side) (word : List Char) : Bool :=
  if word.length < 3 then false else validWordLoop g ord none word

/-- Grid::generate_words (src/main.rs lines 79-85): filter the dictionary
by the legality predicate. -/
def Grid.generate_words (g : Grid) (ord : List Side) : List (List Char) :=
  g.dictionary.filter (fun w => g.is_valid_word ord w)

/-- Head-tail link between two words: the second word starts with the
letter the first one ends with.  The `none` branches stand for the
`unwrap` panics on empty words in the source guard. -/
def linked (u v : List Char) : Bool :=
  match u.getLast?, v.head? with
  | some a, some b => a == b
  | _, _ => false

/-- The expansion guard of solve_bfs (src/main.rs line 154):
`word.chars().next().unwrap() == path.last().unwrap().chars().last().unwrap()`.
The `none` branch stands for the `unwrap` panic on an empty path. -/
def chainGuard (w : List Char) (path : List (List Char)) : Bool :=
  match path.getLast? with
  | some lw => linked lw w
  | none => false

/-- Union of the letters of a chain of words, as computed by
Grid::is_solution_valid (src/main.rs lines 174-182). -/
def chainLetters (c : List (List Char)) : Finset Char :=
  c.foldl (fun acc w => acc ∪ w.toFinset) ∅

/-- Ordered duplicate-free insertion of a character into a list. -/
def insertChar (c : Char) : List Char → List Char
  | [] => [c]
  | d :: rest =>
    if c < d then c :: d :: rest
    else if c = d then d :: rest else d :: insertChar c rest

/-- Canonical sorted duplicate-free list of the characters of `l`: the
model of collecting chars into a `HashSet` and calling `sort_unstable` on
the collected `Vec` (src/main.rs lines 134-139 and 157-163). -/
def sortDedup (l : List Char) : List Char :=
  l.foldl (fun acc c => insertChar c acc) []

/-- All characters of a chain of words, in order. -/
def pathChars (p : List (List Char)) : List Char :=
  p.foldl (fun acc w => acc ++ w) []

/-- A search state: chain length, sorted used-letter vector, chain of
words — the payload of the `Reverse` tuples on the heap. -/
abbrev BState := Nat × List Char × List (List Char)

/-- Lexicographic strict order on lists, as Rust derives for `Vec`. -/
def lexLt (lt : α → α → Bool) [DecidableEq α] : List α → List α → Bool
  | _, [] => false
  | [], _ :: _ => true
  | a :: as, b :: bs => lt a b || (decide (a = b) && lexLt lt as bs)

/-- Rust `Ord` on `Vec<char>` (and on `String` over its characters). -/
def charsLt : List Char → List Char → Bool :=
  lexLt (fun a b => decide (a < b))

/-- Rust `Ord` on `Vec<String>`. -/
def pathLt : List (List Char) → List (List Char) → Bool :=
  lexLt charsLt

/-- Rust `Ord` on the heap tuples `(usize, Vec<char>, Vec<String>)`. -/
def stateLt (a b : BState) : Bool :=
  decide (a.1 < b.1) ||
    (decide (a.1 = b.1) &&
      (charsLt a.2.1 b.2.1 ||
        (decide (a.2.1 = b.2.1) && pathLt a.2.2 b.2.2)))

/-- A least element of the heap: what `BinaryHeap<Reverse<_>>::pop`
returns.  Equal priorities are equal tuples, so the choice is canonical. -/
def heapMin : List BState → Option BState
  | [] => none
  | s :: rest => some (rest.foldl (fun acc x => if stateLt x acc then x else acc) s)

/-- Remove one occurrence of a popped state from the heap. -/
def eraseState : List BState → BState → List BState
  | [], _ => []
  | x :: xs, s => if x = s then xs else x :: eraseState xs s

/-- The initial heap of solve_bfs (src/main.rs lines 133-141): one state
per legal word. -/
def initHeap (vw : List (List Char)) : List BState :=
  vw.map (fun w => (1, sortDedup w, [w]))

/-- One expansion step of solve_bfs (src/main.rs lines 153-167): for every
legal word that chains onto the path and is not already used, push the
extended state. -/
def expandState (vw : List (List Char)) (count : Nat) (usedVec : List Char)
    (path : List (List Char)) : List BState :=
  (vw.filter (fun w => chainGuard w path && !decide (w ∈ path))).map
    (fun w => (count + 1, sortDedup (usedVec ++ w), path ++ [w]))

/-- Decreasing measure of the search: each state of chain length `c` can
still cause at most `(B+1) ^ (m - c)` units of work, where `B` bounds the
branching (the number of legal words). -/
def solveMeasure (B m : Nat) (heap : List BState) : Nat :=
  (heap.map (fun s => (B + 1) ^ (m - s.1))).sum

/-- The loop of Grid::solve_bfs (src/main.rs lines 143-169), with explicit
fuel.  `none` means the fuel ran out (shown unreachable for the fuel used
by `solve_bfs`); `some none` means the heap was exhausted; `some (some p)`
means the state popped had full letter coverage. -/
def bfsLoop (vw : List (List Char)) (target m : Nat) :
    Nat → List BState → Option (Option (List (List Char)))
  | 0, _ => none
  | fuel + 1, heap =>
    match heapMin heap with
    | none => some none
    | some s =>
      if s.2.1.toFinset.card = target then some (some s.2.2)
      else if m ≤ s.1 then
        bfsLoop vw target m fuel (eraseState heap s)
      else
        bfsLoop vw target m fuel
          (eraseState heap s ++ expandState vw s.1 s.2.1 s.2.2)

/-- Grid::solve_bfs (src/main.rs lines 130-172): run the loop from the
initial heap.  The fuel exceeds the measure, so the default branch of
`getD` is never taken (see the termination theorem). -/
def Grid.solve_bfs (g : Grid) (vw : List (List Char)) :
    Option (List (List Char)) :=
  (bfsLoop vw g.all_letters.card g.max_guesses
      (solveMeasure vw.length g.max_guesses (initHeap vw) + 1)
      (initHeap vw)).getD none

/-- Grid::is_solution_valid (src/main.rs lines 174-182). -/
def Grid.is_solution_valid (g : Grid) (solution : List (List Char)) : Bool :=
  decide (chainLetters solution = g.all_letters)

/-- Grid::solve (src/main.rs lines 117-128). -/
def Grid.solve (g : Grid) (ord : List Side) : Option (List (List Char)) :=
  match g.solve_bfs (g.generate_words ord) with
  | some solution =>
    if g.is_solution_valid solution then some solution else none
  | none => none

/-- Models the grid construction in main (src/main.rs lines 185-205): the
grid string is uppercased, the dictionary is passed through unchanged. -/
def mainGame (grid : List Char) (dictionary : List (List Char))
    (max_guesses : Option Nat) : Grid :=
  Grid.new (grid.map Char.toUpper) dictionary max_guesses

/-- A chain of legal words that solves the puzzle: nonempty, no word
repeated, every word legal for the grid, consecutively head-tail linked,
and covering the full letter set exactly. -/
def Grid.IsSolutionChain (g : Grid) (ord : List Side)
    (c : List (List Char)) : Prop :=
  c ≠ [] ∧ c.Nodup ∧ (∀ w ∈ c, w ∈ g.generate_words ord) ∧
    List.Chain' (fun u v => linked u v = true) c ∧
    chainLetters c = g.all_letters

/-- Invariant of every state the search ever places on the heap. -/
def Good (vw : List (List Char)) (m : Nat) (s : BState) : Prop :=
  s.2.2 ≠ [] ∧ s.1 = s.2.2.length ∧ s.2.2.Nodup ∧
    (∀ w ∈ s.2.2, w ∈ vw) ∧
    List.Chain' (fun u v => linked u v = true) s.2.2 ∧
    s.2.1 = sortDedup (pathChars s.2.2) ∧ s.1 ≤ max 1 m

/-- The heap state corresponding to the first `j` words of a chain. -/
def takeState (c : List (List Char)) (j : Nat) : BState :=
  (j, sortDedup (pathChars (c.take j)), c.take j)

/-- No letter occurs in the letter lists of two different sides of the
map: under this condition `get_side` does not depend on the iteration
order of the HashMap. -/
def SameSide (g : Grid) : Prop :=
  ∀ p ∈ g.words, ∀ q ∈ g.words, ∀ ch ∈ p.2, ch ∈ q.2 → p.1 = q.1

/-- The distinct letters occurring in a list of letter groups. -/
def lettersOfGroups (gl : List (List Char)) : Finset Char :=
  gl.foldl (fun A g => A ∪ g.toFinset) ∅

/-- Executable check that every adjacent pair of a list satisfies a
boolean relation; used to evaluate chain conditions on concrete inputs. -/
def chainBool (R : α → α → Bool) : List α → Bool
  | [] => true
  | [_] => true
  | a :: b :: rest => R a b && chainBool R (b :: rest)

/-! ### Basic facts about the lexicographic orders -/

theorem lexLt_irrefl (lt : α → α → Bool) [DecidableEq α]
    (h : ∀ a, lt a a = false) : ∀ l, lexLt lt l l = false := by
  intro l
  induction l with
  | nil => rfl
  | cons a as ih => simp [lexLt, h, ih]

theorem lexLt_trans (lt : α → α → Bool) [DecidableEq α]
    (htr : ∀ a b c, lt a b = true → lt b c = true → lt a c = true) :
    ∀ x y z, lexLt lt x y = true → lexLt lt y z = true →
      lexLt lt x z = true := by
  intro x
  induction x with
  | nil =>
    intro y z hxy hyz
    cases z with
    | nil =>
      cases y with
      | nil => simp [lexLt] at hxy
      | cons b bs => simp [lexLt] at hyz
    | cons c cs => simp [lexLt]
  | cons a as ih =>
    intro y z hxy hyz
    cases y with
    | nil => simp [lexLt] at hxy
    | cons b bs =>
      cases z with
      | nil => simp [lexLt] at hyz
      | cons c cs =>
        simp only [lexLt, Bool.or_eq_true, Bool.and_eq_true,
          decide_eq_true_eq] at hxy hyz ⊢
        rcases hxy with h1 | ⟨rfl, h1⟩
        · rcases hyz with h2 | ⟨rfl, h2⟩
          · exact Or.inl (htr _ _ _ h1 h2)
          · exact Or.inl h1
        · rcases hyz with h2 | ⟨rfl, h2⟩
          · exact Or.inl h2
          · exact Or.inr ⟨rfl, ih _ _ h1 h2⟩

theorem lexLt_total (lt : α → α → Bool) [DecidableEq α]
    (htot : ∀ a b, lt a b = false → lt b a = false → a = b) :
    ∀ x y, lexLt lt x y = false → lexLt lt y x = false → x = y := by
  intro x
  induction x with
  | nil =>
    intro y hxy _
    cases y with
    | nil => rfl
    | cons b bs => simp [lexLt] at hxy
  | cons a as ih =>
    intro y hxy hyx
    cases y with
    | nil => simp [lexLt] at hyx
    | cons b bs =>
      simp only [lexLt, Bool.or_eq_false_iff, Bool.and_eq_false_iff,
        decide_eq_false_iff_not] at hxy hyx
      obtain ⟨hab, h1⟩ := hxy
      obtain ⟨hba, h2⟩ := hyx
      have hEq : a = b := htot _ _ hab hba
      subst hEq
      rcases h1 with h1 | h1
      · exact absurd rfl h1
      · rcases h2 with h2 | h2
        · exact absurd rfl h2
        · rw [ih _ h1 h2]

theorem charsLt_irrefl : ∀ l, charsLt l l = false :=
  lexLt_irrefl _ (fun a => by simp)

theorem charsLt_trans : ∀ x y z, charsLt x y = true → charsLt y z = true →
    charsLt x z = true :=
  lexLt_trans _ (fun a b c h1 h2 => by
    rw [decide_eq_true_eq] at h1 h2
    exact decide_eq_true (lt_trans h1 h2))

theorem charsLt_total : ∀ x y, charsLt x y = false → charsLt y x = false →
    x = y :=
  lexLt_total _ (fun a b h1 h2 => by
    rw [decide_eq_false_iff_not] at h1 h2
    exact le_antisymm (not_lt.mp h2) (not_lt.mp h1))

theorem pathLt_irrefl : ∀ l, pathLt l l = false :=
  lexLt_irrefl _ charsLt_irrefl

theorem pathLt_trans : ∀ x y z, pathLt x y = true → pathLt y z = true →
    pathLt x z = true :=
  lexLt_trans _ charsLt_trans

theorem pathLt_total : ∀ x y, pathLt x y = false → pathLt y x = false →
    x = y :=
  lexLt_total _ charsLt_total

theorem stateLt_irrefl (s : BState) : stateLt s s = false := by
  simp [stateLt, charsLt_irrefl, pathLt_irrefl]

theorem stateLt_trans {a b c : BState} (h1 : stateLt a b = true)
    (h2 : stateLt b c = true) : stateLt a c = true := by
  simp only [stateLt, Bool.or_eq_true, Bool.and_eq_true, decide_eq_true_eq] at h1 h2 ⊢
  rcases h1 with h1 | ⟨e1, h1⟩
  · rcases h2 with h2 | ⟨e2, h2⟩
    · exact Or.inl (lt_trans h1 h2)
    · exact Or.inl (e2 ▸ h1)
  · rcases h2 with h2 | ⟨e2, h2⟩
    · exact Or.inl (e1 ▸ h2)
    · refine Or.inr ⟨e1.trans e2, ?_⟩
      rcases h1 with h1 | ⟨e1', h1⟩
      · rcases h2 with h2 | ⟨e2', h2⟩
        · exact Or.inl (charsLt_trans _ _ _ h1 h2)
        · exact Or.inl (e2' ▸ h1)
      · rcases h2 with h2 | ⟨e2', h2⟩
        · exact Or.inl (e1' ▸ h2)
        · exact Or.inr ⟨e1'.trans e2', pathLt_trans _ _ _ h1 h2⟩

theorem stateLt_total {a b : BState} (h1 : stateLt a b = false)
    (h2 : stateLt b a = false) : a = b := by
  simp only [stateLt, Bool.or_eq_false_iff, Bool.and_eq_false_iff,
    decide_eq_false_iff_not] at h1 h2
  obtain ⟨hn1, hr1⟩ := h1
  obtain ⟨hn2, hr2⟩ := h2
  have e1 : a.1 = b.1 := by omega
  rcases hr1 with hr1 | ⟨hc1, hp1⟩
  · exact absurd e1 hr1
  rcases hr2 with hr2 | ⟨hc2, hp2⟩
  · exact absurd e1.symm hr2
  have e2 : a.2.1 = b.2.1 := charsLt_total _ _ hc1 hc2
  rcases hp1 with hp1 | hp1
  · exact absurd e2 hp1
  rcases hp2 with hp2 | hp2
  · exact absurd e2.symm hp2
  have e3 : a.2.2 = b.2.2 := pathLt_total _ _ hp1 hp2
  exact Prod.ext e1 (Prod.ext e2 e3)

theorem stateLt_count_le {x s : BState} (h : stateLt x s = false) :
    s.1 ≤ x.1 := by
  simp only [stateLt, Bool.or_eq_false_iff, decide_eq_false_iff_not] at h
  omega

/-! ### The heap model: popping a least state -/

theorem foldlMin_mem :
    ∀ (l : List BState) (init : BState),
      l.foldl (fun acc x => if stateLt x acc then x else acc) init ∈ init :: l := by
  intro l
  induction l with
  | nil => intro init; simp
  | cons y ys ih =>
    intro init
    simp only [List.foldl_cons]
    have h := ih (if stateLt y init then y else init)
    rcases List.mem_cons.mp h with h | h
    · rw [h]
      split
      · exact List.mem_cons_of_mem _ (List.mem_cons_self _ _)
      · exact List.mem_cons_self _ _
    · exact List.mem_cons_of_mem _ (List.mem_cons_of_mem _ h)

theorem foldlMin_not_lt :
    ∀ (l : List BState) (init : BState) (x : BState), x ∈ init :: l →
      stateLt x (l.foldl (fun acc x => if stateLt x acc then x else acc) init)
        = false := by
  intro l
  induction l with
  | nil =>
    intro init x hx
    rcases List.mem_cons.mp hx with h | h
    · rw [h]; exact stateLt_irrefl _
    · simp at h
  | cons y ys ih =>
    intro init x hx
    simp only [List.foldl_cons]
    have hinit' : stateLt (if stateLt y init then y else init)
        (ys.foldl (fun acc x => if stateLt x acc then x else acc)
          (if stateLt y init then y else init)) = false :=
      ih _ _ (List.mem_cons_self _ _)
    rcases List.mem_cons.mp hx with h | h
    · -- x = init
      subst h
      by_cases hlt : stateLt y x = true
      · rw [if_pos hlt] at hinit' ⊢
        cases hcon : stateLt x (ys.foldl
            (fun acc x => if stateLt x acc then x else acc) y) with
        | false => rfl
        | true => exact absurd (stateLt_trans hlt hcon) (by simp [hinit'])
      · rw [if_neg hlt] at hinit' ⊢
        exact hinit'
    · rcases List.mem_cons.mp h with h | h
      · -- x = y
        subst h
        by_cases hlt : stateLt x init = true
        · rw [if_pos hlt] at hinit' ⊢
          exact hinit'
        · rw [if_neg hlt] at hinit' ⊢
          have hlt' : stateLt x init = false := by
            cases hcase : stateLt x init
            · rfl
            · exact absurd hcase hlt
          cases hcon : stateLt x (ys.foldl
              (fun acc x => if stateLt x acc then x else acc) init) with
          | false => rfl
          | true =>
            exfalso
            cases hri : stateLt (ys.foldl
                (fun acc x => if stateLt x acc then x else acc) init) init with
            | true =>
              have htr := stateLt_trans hcon hri
              rw [hlt'] at htr
              exact Bool.false_ne_true htr
            | false =>
              have heq := stateLt_total hinit' hri
              rw [← heq] at hcon
              rw [hlt'] at hcon
              exact Bool.false_ne_true hcon
      · -- x ∈ ys
        exact ih _ _ (List.mem_cons_of_mem _ h)

theorem heapMin_mem {heap : List BState} {s : BState}
    (h : heapMin heap = some s) : s ∈ heap := by
  cases heap with
  | nil => simp [heapMin] at h
  | cons y ys =>
    simp only [heapMin, Option.some.injEq] at h
    rw [← h]
    exact foldlMin_mem ys y

theorem heapMin_not_lt {heap : List BState} {s : BState}
    (h : heapMin heap = some s) : ∀ x ∈ heap, stateLt x s = false := by
  cases heap with
  | nil => simp [heapMin] at h
  | cons y ys =>
    simp only [heapMin, Option.some.injEq] at h
    intro x hx
    rw [← h]
    exact foldlMin_not_lt ys y x hx

theorem heapMin_none {heap : List BState} (h : heapMin heap = none) :
    heap = [] := by
  cases heap with
  | nil => rfl
  | cons y ys => simp [heapMin] at h

/-! ### Removing a popped state, and the decreasing measure -/

theorem eraseState_subset {l : List BState} {s x : BState}
    (h : x ∈ eraseState l s) : x ∈ l := by
  induction l with
  | nil => simp [eraseState] at h
  | cons y ys ih =>
    simp only [eraseState] at h
    split at h
    · exact List.mem_cons_of_mem _ h
    · rcases List.mem_cons.mp h with h | h
      · rw [h]; exact List.mem_cons_self _ _
      · exact List.mem_cons_of_mem _ (ih h)

theorem mem_eraseState_of_ne {l : List BState} {s x : BState}
    (hx : x ∈ l) (hne : x ≠ s) : x ∈ eraseState l s := by
  induction l with
  | nil => simp at hx
  | cons y ys ih =>
    simp only [eraseState]
    split
    · rename_i hy
      rcases List.mem_cons.mp hx with h | h
      · exact absurd (h.trans hy) hne
      · exact h
    · rcases List.mem_cons.mp hx with h | h
      · rw [h]; exact List.mem_cons_self _ _
      · exact List.mem_cons_of_mem _ (ih h)

theorem solveMeasure_cons (B m : Nat) (s : BState) (l : List BState) :
    solveMeasure B m (s :: l) = (B + 1) ^ (m - s.1) + solveMeasure B m l := by
  simp [solveMeasure]

theorem solveMeasure_append (B m : Nat) (l₁ l₂ : List BState) :
    solveMeasure B m (l₁ ++ l₂) = solveMeasure B m l₁ + solveMeasure B m l₂ := by
  simp [solveMeasure]

theorem eraseState_measure {l : List BState} {s : BState} (h : s ∈ l)
    (B m : Nat) :
    solveMeasure B m (eraseState l s) + (B + 1) ^ (m - s.1)
      = solveMeasure B m l := by
  induction l with
  | nil => simp at h
  | cons y ys ih =>
    simp only [eraseState]
    split
    · rename_i hy
      rw [solveMeasure_cons, hy]
      omega
    · rename_i hy
      have hs : s ∈ ys := by
        rcases List.mem_cons.mp h with h | h
        · exact absurd h.symm hy
        · exact h
      rw [solveMeasure_cons, solveMeasure_cons, ← ih hs]
      omega

theorem sum_map_const {α : Type} (l : List α) (k : Nat) :
    (l.map (fun _ => k)).sum = l.length * k := by
  induction l with
  | nil => simp
  | cons a as ih => simp [ih, Nat.succ_mul]; omega

theorem solveMeasure_map {α : Type} (B m c : Nat) (l : List α)
    (st : α → BState) (hc : ∀ a, (st a).1 = c) :
    solveMeasure B m (l.map st) = l.length * (B + 1) ^ (m - c) := by
  induction l with
  | nil => simp [solveMeasure]
  | cons a as ih =>
    simp only [List.map_cons, solveMeasure_cons, ih, hc a, List.length_cons]
    ring

theorem expandState_measure (vw : List (List Char)) (count : Nat)
    (usedVec : List Char) (path : List (List Char)) {m : Nat}
    (h : count < m) :
    solveMeasure vw.length m (expandState vw count usedVec path)
      < (vw.length + 1) ^ (m - count) := by
  have hlen : (vw.filter
      (fun w => chainGuard w path && !decide (w ∈ path))).length ≤ vw.length :=
    List.length_filter_le _ _
  have hpow : 0 < (vw.length + 1) ^ (m - (count + 1)) :=
    pow_pos (Nat.succ_pos _) _
  have hsplit : m - count = (m - (count + 1)) + 1 := by omega
  calc solveMeasure vw.length m (expandState vw count usedVec path)
      = (vw.filter (fun w => chainGuard w path && !decide (w ∈ path))).length
          * (vw.length + 1) ^ (m - (count + 1)) :=
        solveMeasure_map _ _ _ _ _ (fun _ => rfl)
    _ ≤ vw.length * (vw.length + 1) ^ (m - (count + 1)) :=
        Nat.mul_le_mul_right _ hlen
    _ < (vw.length + 1) * (vw.length + 1) ^ (m - (count + 1)) :=
        (Nat.mul_lt_mul_right hpow).mpr (Nat.lt_succ_self _)
    _ = (vw.length + 1) ^ (m - count) := by rw [hsplit, pow_succ]; ring

/-! ### The sorted duplicate-free letter vectors -/

theorem mem_insertChar (c x : Char) :
    ∀ l : List Char, x ∈ insertChar c l ↔ x = c ∨ x ∈ l := by
  intro l
  induction l with
  | nil => simp [insertChar]
  | cons d rest ih =>
    simp only [insertChar]
    split
    · simp [List.mem_cons]
    · split
      · rename_i hcd
        subst hcd
        simp only [List.mem_cons]
        tauto
      · simp only [List.mem_cons, ih]
        tauto

theorem sorted_insertChar (c : Char) :
    ∀ l : List Char, l.Sorted (· < ·) → (insertChar c l).Sorted (· < ·) := by
  intro l
  induction l with
  | nil => intro _; simp [insertChar]
  | cons d rest ih =>
    intro hs
    rw [List.sorted_cons] at hs
    obtain ⟨hd, hrest⟩ := hs
    simp only [insertChar]
    split
    · rename_i hcd
      rw [List.sorted_cons]
      refine ⟨?_, ?_⟩
      · intro b hb
        rcases List.mem_cons.mp hb with h | h
        · rw [h]; exact hcd
        · exact lt_trans hcd (hd b h)
      · rw [List.sorted_cons]; exact ⟨hd, hrest⟩
    · split
      · rw [List.sorted_cons]; exact ⟨hd, hrest⟩
      · rename_i hncd hne
        have hdc : d < c := by
          rcases lt_trichotomy c d with h | h | h
          · exact absurd h hncd
          · exact absurd h hne
          · exact h
        rw [List.sorted_cons]
        refine ⟨?_, ih hrest⟩
        intro b hb
        rcases (mem_insertChar c b rest).mp hb with h | h
        · rw [h]; exact hdc
        · exact hd b h

theorem sortDedup_aux_mem (x : Char) :
    ∀ (l acc : List Char),
      x ∈ l.foldl (fun acc c => insertChar c acc) acc ↔ x ∈ l ∨ x ∈ acc := by
  intro l
  induction l with
  | nil => intro acc; simp
  | cons c cs ih =>
    intro acc
    simp only [List.foldl_cons, ih, mem_insertChar, List.mem_cons]
    tauto

theorem mem_sortDedup (x : Char) (l : List Char) :
    x ∈ sortDedup l ↔ x ∈ l := by
  simp [sortDedup, sortDedup_aux_mem]

theorem sorted_sortDedup (l : List Char) : (sortDedup l).Sorted (· < ·) := by
  have aux : ∀ (l acc : List Char), acc.Sorted (· < ·) →
      (l.foldl (fun acc c => insertChar c acc) acc).Sorted (· < ·) := by
    intro l
    induction l with
    | nil => intro acc h; simpa using h
    | cons c cs ih =>
      intro acc h
      simp only [List.foldl_cons]
      exact ih _ (sorted_insertChar c acc h)
  exact aux l [] (by simp)

theorem nodup_sortDedup (l : List Char) : (sortDedup l).Nodup :=
  (sorted_sortDedup l).nodup

theorem sorted_eq_of_mem_iff :
    ∀ {l₁ l₂ : List Char}, l₁.Sorted (· < ·) → l₂.Sorted (· < ·) →
      (∀ x, x ∈ l₁ ↔ x ∈ l₂) → l₁ = l₂ := by
  intro l₁
  induction l₁ with
  | nil =>
    intro l₂ _ _ hmem
    cases l₂ with
    | nil => rfl
    | cons b bs =>
      exact absurd ((hmem b).mpr (List.mem_cons_self b bs)) (List.not_mem_nil b)
  | cons a as ih =>
    intro l₂ h₁ h₂ hmem
    cases l₂ with
    | nil =>
      exact absurd ((hmem a).mp (List.mem_cons_self a as)) (List.not_mem_nil a)
    | cons b bs =>
      rw [List.sorted_cons] at h₁ h₂
      obtain ⟨ha, has⟩ := h₁
      obtain ⟨hb, hbs⟩ := h₂
      have hab : a = b := by
        rcases List.mem_cons.mp ((hmem a).mp (List.mem_cons_self a as)) with h | h
        · exact h
        · rcases List.mem_cons.mp ((hmem b).mpr (List.mem_cons_self b bs)) with h' | h'
          · exact h'.symm
          · exact absurd (hb a h) (not_lt.mpr (le_of_lt (ha b h')))
      subst hab
      have htail : ∀ x, x ∈ as ↔ x ∈ bs := by
        intro x
        constructor
        · intro hx
          rcases List.mem_cons.mp ((hmem x).mp (List.mem_cons_of_mem _ hx)) with h | h
          · exact absurd (ha x hx) (by rw [h]; exact lt_irrefl a)
          · exact h
        · intro hx
          rcases List.mem_cons.mp ((hmem x).mpr (List.mem_cons_of_mem _ hx)) with h | h
          · exact absurd (hb x hx) (by rw [h]; exact lt_irrefl a)
          · exact h
      rw [ih has hbs htail]

theorem sortDedup_congr {l₁ l₂ : List Char}
    (h : ∀ x, x ∈ l₁ ↔ x ∈ l₂) : sortDedup l₁ = sortDedup l₂ :=
  sorted_eq_of_mem_iff (sorted_sortDedup l₁) (sorted_sortDedup l₂)
    (fun x => by rw [mem_sortDedup, mem_sortDedup]; exact h x)

theorem sortDedup_toFinset (l : List Char) :
    (sortDedup l).toFinset = l.toFinset := by
  ext x
  simp [mem_sortDedup]

theorem length_sortDedup (l : List Char) :
    (sortDedup l).length = l.toFinset.card := by
  rw [← sortDedup_toFinset, List.toFinset_card_of_nodup (nodup_sortDedup l)]

/-! ### Letters of a chain -/

theorem pathChars_append (p : List (List Char)) (w : List Char) :
    pathChars (p ++ [w]) = pathChars p ++ w := by
  simp [pathChars, List.foldl_append]

theorem chainLetters_eq_toFinset (p : List (List Char)) :
    chainLetters p = (pathChars p).toFinset := by
  have aux : ∀ (p : List (List Char)) (A : Finset Char) (l : List Char),
      A = l.toFinset →
      p.foldl (fun acc w => acc ∪ w.toFinset) A
        = (p.foldl (fun acc w => acc ++ w) l).toFinset := by
    intro p
    induction p with
    | nil => intro A l h; simpa using h
    | cons w ws ih =>
      intro A l h
      simp only [List.foldl_cons]
      exact ih _ _ (by rw [h, List.toFinset_append])
  exact aux p ∅ [] (by simp)

theorem chainLetters_append (p : List (List Char)) (w : List Char) :
    chainLetters (p ++ [w]) = chainLetters p ∪ w.toFinset := by
  simp [chainLetters, List.foldl_append]

theorem chainLetters_singleton (w : List Char) :
    chainLetters [w] = w.toFinset := by
  simp [chainLetters]

/-! ### The search invariant -/

theorem chainGuard_true_iff (w : List Char) (path : List (List Char)) :
    chainGuard w path = true ↔
      ∃ lw, path.getLast? = some lw ∧ linked lw w = true := by
  cases hp : path.getLast? with
  | none => simp [chainGuard, hp]
  | some lw => simp [chainGuard, hp]

theorem good_initHeap (vw : List (List Char)) (m : Nat) :
    ∀ s ∈ initHeap vw, Good vw m s := by
  intro s hs
  obtain ⟨w, hw, rfl⟩ := List.mem_map.mp hs
  refine ⟨by simp, by simp, by simp, ?_, ?_, ?_, ?_⟩
  · intro u hu
    rw [List.mem_singleton.mp hu]
    exact hw
  · exact List.chain'_singleton w
  · show sortDedup w = sortDedup (pathChars [w])
    have : pathChars [w] = w := by simp [pathChars]
    rw [this]
  · exact le_max_left 1 m

theorem good_expandState {vw : List (List Char)} {m : Nat} {s : BState}
    (hg : Good vw m s) (hlt : s.1 < m) :
    ∀ x ∈ expandState vw s.1 s.2.1 s.2.2, Good vw m x := by
  intro x hx
  obtain ⟨w, hwf, rfl⟩ := List.mem_map.mp hx
  obtain ⟨hwvw, hwp⟩ := List.mem_filter.mp hwf
  rw [Bool.and_eq_true, Bool.not_eq_true', decide_eq_false_iff_not] at hwp
  obtain ⟨hguard, hnotmem⟩ := hwp
  obtain ⟨hne, hlen, hnd, hmem, hchain, hvec, hbound⟩ := hg
  obtain ⟨lw, hlast, hlink⟩ := (chainGuard_true_iff w s.2.2).mp hguard
  refine ⟨by simp, by simp [hlen], ?_, ?_, ?_, ?_, ?_⟩
  · rw [List.nodup_append]
    exact ⟨hnd, List.nodup_singleton w, by simpa using hnotmem⟩
  · intro u hu
    rcases List.mem_append.mp hu with h | h
    · exact hmem u h
    · rw [List.mem_singleton.mp h]; exact hwvw
  · refine List.Chain'.append hchain (List.chain'_singleton w) ?_
    intro u hu v hv
    rw [hlast] at hu
    have hu' : lw = u := by simpa using hu
    have hv' : w = v := by simpa using hv
    rw [← hu', ← hv']
    exact hlink
  · show sortDedup (s.2.1 ++ w) = sortDedup (pathChars (s.2.2 ++ [w]))
    rw [pathChars_append]
    apply sortDedup_congr
    intro x
    rw [hvec]
    simp [List.mem_append, mem_sortDedup]
  · show s.1 + 1 ≤ max 1 m
    omega

/-! ### Soundness of the search loop -/

theorem bfsLoop_sound {vw : List (List Char)} {t m : Nat} :
    ∀ (fuel : Nat) (heap : List BState), (∀ s ∈ heap, Good vw m s) →
      ∀ path, bfsLoop vw t m fuel heap = some (some path) →
        path ≠ [] ∧ path.Nodup ∧ (∀ w ∈ path, w ∈ vw) ∧
          List.Chain' (fun u v => linked u v = true) path ∧
          path.length ≤ max 1 m ∧ (chainLetters path).card = t := by
  intro fuel
  induction fuel with
  | zero =>
    intro heap _ path h
    simp [bfsLoop] at h
  | succ fuel ih =>
    intro heap hgood path h
    cases hmin : heapMin heap with
    | none => simp [bfsLoop, hmin] at h
    | some s =>
      simp only [bfsLoop, hmin] at h
      have hs : Good vw m s := hgood s (heapMin_mem hmin)
      obtain ⟨hne, hlen, hnd, hmem, hchain, hvec, hbound⟩ := hs
      split at h
      · rename_i hcard
        have hpath : s.2.2 = path := by
          simpa using h
        subst hpath
        refine ⟨hne, hnd, hmem, hchain, by omega, ?_⟩
        rw [chainLetters_eq_toFinset]
        rw [hvec, sortDedup_toFinset] at hcard
        exact hcard
      · split at h
        · exact ih _ (fun x hx => hgood x (eraseState_subset hx)) path h
        · rename_i hcount
          refine ih _ ?_ path h
          intro x hx
          rcases List.mem_append.mp hx with hx | hx
          · exact hgood x (eraseState_subset hx)
          · exact good_expandState
              ⟨hne, hlen, hnd, hmem, hchain, hvec, hbound⟩
              (by omega) x hx

/-! ### The fuel bound is sufficient: the loop always reaches an answer -/

theorem bfsLoop_isSome {vw : List (List Char)} {t m : Nat} :
    ∀ (fuel : Nat) (heap : List BState),
      solveMeasure vw.length m heap < fuel →
      (bfsLoop vw t m fuel heap).isSome := by
  intro fuel
  induction fuel with
  | zero => intro heap h; exact absurd h (Nat.not_lt_zero _)
  | succ fuel ih =>
    intro heap hfuel
    cases hmin : heapMin heap with
    | none => simp [bfsLoop, hmin]
    | some s =>
      simp only [bfsLoop, hmin]
      have hsmem := heapMin_mem hmin
      have herase := eraseState_measure hsmem vw.length m
      have hpow : 1 ≤ (vw.length + 1) ^ (m - s.1) :=
        Nat.one_le_pow _ _ (Nat.succ_pos _)
      split
      · simp
      · split
        · exact ih _ (by omega)
        · rename_i hcount
          have hexp := expandState_measure vw s.1 s.2.1 s.2.2
            (m := m) (by omega)
          have happ := solveMeasure_append vw.length m
            (eraseState heap s) (expandState vw s.1 s.2.1 s.2.2)
          exact ih _ (by omega)

/-! ### Completeness: prefixes of a solution chain survive on the heap -/

theorem take_succ_concat {c : List (List Char)} {j : Nat} (h : j < c.length) :
    c.take (j + 1) = c.take j ++ [c.get ⟨j, h⟩] := by
  rw [List.take_succ, List.getElem?_eq_getElem h]
  rfl

theorem not_mem_take {c : List (List Char)} {j : Nat} (hnd : c.Nodup)
    (h : j < c.length) : c.get ⟨j, h⟩ ∉ c.take j := by
  intro hmem
  obtain ⟨i, hi, hEq⟩ := List.mem_iff_getElem.mp hmem
  have hij : i < j := by
    have := List.length_take j c
    omega
  have hic : i < c.length := by omega
  rw [List.getElem_take] at hEq
  have := (@List.Nodup.getElem_inj_iff _ _ hnd i hic j h).mp hEq
  omega

theorem takeState_good {vw : List (List Char)} {m : Nat}
    {c : List (List Char)} {j : Nat}
    (hnd : c.Nodup) (hmem : ∀ w ∈ c, w ∈ vw)
    (hchain : List.Chain' (fun u v => linked u v = true) c)
    (hj1 : 1 ≤ j) (hjle : j ≤ c.length) (hbound : j ≤ max 1 m) :
    Good vw m (takeState c j) := by
  have hlen : (c.take j).length = j := by
    rw [List.length_take]; omega
  refine ⟨?_, hlen.symm, (List.take_sublist j c).nodup hnd, ?_, ?_, rfl, hbound⟩
  · intro hEq
    have hEq' : c.take j = [] := hEq
    rw [hEq'] at hlen
    simp at hlen
    omega
  · intro w hw
    exact hmem w (List.mem_of_mem_take hw)
  · exact hchain.take j

theorem takeState_succ_mem_expand {vw : List (List Char)}
    {c : List (List Char)} {j : Nat}
    (hnd : c.Nodup) (hmem : ∀ w ∈ c, w ∈ vw)
    (hchain : List.Chain' (fun u v => linked u v = true) c)
    (hj1 : 1 ≤ j) (hjlt : j < c.length) :
    takeState c (j + 1)
      ∈ expandState vw j (sortDedup (pathChars (c.take j))) (c.take j) := by
  have hw : c.get ⟨j, hjlt⟩ ∈ vw := hmem _ (List.get_mem c j hjlt)
  have hguard : chainGuard (c.get ⟨j, hjlt⟩) (c.take j) = true := by
    rw [chainGuard_true_iff]
    obtain ⟨i, rfl⟩ : ∃ i, j = i + 1 := ⟨j - 1, by omega⟩
    have hic : i < c.length := by omega
    refine ⟨c.get ⟨i, hic⟩, ?_, ?_⟩
    · rw [take_succ_concat hic, List.getLast?_concat]
    · have hlink := List.chain'_iff_get.mp hchain i (by omega)
      exact hlink
  have hnm : c.get ⟨j, hjlt⟩ ∉ c.take j := not_mem_take hnd hjlt
  apply List.mem_map.mpr
  refine ⟨c.get ⟨j, hjlt⟩, List.mem_filter.mpr ⟨hw, ?_⟩, ?_⟩
  · rw [Bool.and_eq_true, hguard, Bool.not_eq_true', decide_eq_false_iff_not]
    exact ⟨rfl, hnm⟩
  · show (j + 1, sortDedup (sortDedup (pathChars (c.take j)) ++ c.get ⟨j, hjlt⟩),
        c.take j ++ [c.get ⟨j, hjlt⟩]) = takeState c (j + 1)
    have hpath : c.take (j + 1) = c.take j ++ [c.get ⟨j, hjlt⟩] :=
      take_succ_concat hjlt
    have hvec : sortDedup (sortDedup (pathChars (c.take j)) ++ c.get ⟨j, hjlt⟩)
        = sortDedup (pathChars (c.take (j + 1))) := by
      rw [hpath, pathChars_append]
      apply sortDedup_congr
      intro x
      simp [List.mem_append, mem_sortDedup]
    rw [takeState, ← hpath, hvec]

theorem bfsLoop_complete {vw : List (List Char)} {t m : Nat} :
    ∀ (fuel : Nat) (heap : List BState) (c : List (List Char)) (j : Nat),
      solveMeasure vw.length m heap < fuel →
      (∀ s ∈ heap, Good vw m s) →
      c.Nodup → (∀ w ∈ c, w ∈ vw) →
      List.Chain' (fun u v => linked u v = true) c →
      (chainLetters c).card = t → c.length ≤ max 1 m →
      1 ≤ j → j ≤ c.length → takeState c j ∈ heap →
      ∃ path, bfsLoop vw t m fuel heap = some (some path) ∧
        path.length ≤ c.length := by
  intro fuel
  induction fuel with
  | zero =>
    intro heap c j hfuel
    exact absurd hfuel (Nat.not_lt_zero _)
  | succ fuel ih =>
    intro heap c j hfuel hgood hnd hmem hchain hcard hclen hj1 hjle hjheap
    cases hmin : heapMin heap with
    | none =>
      rw [heapMin_none hmin] at hjheap
      exact absurd hjheap (List.not_mem_nil _)
    | some s =>
      simp only [bfsLoop, hmin]
      have hsmem := heapMin_mem hmin
      have hsgood := hgood s hsmem
      have herase := eraseState_measure hsmem vw.length m
      have hpow : 1 ≤ (vw.length + 1) ^ (m - s.1) :=
        Nat.one_le_pow _ _ (Nat.succ_pos _)
      have hjcount : s.1 ≤ j := by
        have hlt := heapMin_not_lt hmin _ hjheap
        have := stateLt_count_le hlt
        simpa [takeState] using this
      by_cases hret : s.2.1.toFinset.card = t
      · rw [if_pos hret]
        refine ⟨s.2.2, rfl, ?_⟩
        have hslen : s.1 = s.2.2.length := hsgood.2.1
        omega
      · rw [if_neg hret]
        by_cases hsp : s = takeState c j
        · have hjne : j ≠ c.length := by
            intro hEq
            apply hret
            rw [hsp]
            show (sortDedup (pathChars (c.take j))).toFinset.card = t
            rw [sortDedup_toFinset, ← chainLetters_eq_toFinset, hEq,
              List.take_length]
            exact hcard
          have hjlt : j < c.length := lt_of_le_of_ne hjle hjne
          have hm1 : 1 ≤ m := by
            by_contra h0
            have hm0 : m = 0 := by omega
            rw [hm0] at hclen
            simp at hclen
            omega
          have hjm : j < m := by
            have : max 1 m = m := by omega
            omega
          have hcount : ¬ m ≤ s.1 := by
            rw [hsp]
            show ¬ m ≤ j
            omega
          rw [if_neg hcount]
          have hexp := expandState_measure vw s.1 s.2.1 s.2.2
            (m := m) (by omega)
          have happ := solveMeasure_append vw.length m
            (eraseState heap s) (expandState vw s.1 s.2.1 s.2.2)
          refine ih _ c (j + 1) (by omega) ?_ hnd hmem hchain hcard hclen
            (by omega) (by omega) ?_
          · intro x hx
            rcases List.mem_append.mp hx with hx | hx
            · exact hgood x (eraseState_subset hx)
            · exact good_expandState hsgood (by omega) x hx
          · apply List.mem_append.mpr
            right
            rw [hsp]
            exact takeState_succ_mem_expand hnd hmem hchain hj1 hjlt
        · have hjrest : takeState c j ∈ eraseState heap s :=
            mem_eraseState_of_ne hjheap (fun hEq => hsp hEq.symm)
          by_cases hcount : m ≤ s.1
          · rw [if_pos hcount]
            exact ih _ c j (by omega)
              (fun x hx => hgood x (eraseState_subset hx))
              hnd hmem hchain hcard hclen hj1 hjle hjrest
          · rw [if_neg hcount]
            have hexp := expandState_measure vw s.1 s.2.1 s.2.2
              (m := m) (by omega)
            have happ := solveMeasure_append vw.length m
              (eraseState heap s) (expandState vw s.1 s.2.1 s.2.2)
            refine ih _ c j (by omega) ?_ hnd hmem hchain hcard hclen
              hj1 hjle (List.mem_append.mpr (Or.inl hjrest))
            intro x hx
            rcases List.mem_append.mp hx with hx | hx
            · exact hgood x (eraseState_subset hx)
            · exact good_expandState hsgood (by omega) x hx

/-! ### Characterising the word legality predicate -/

theorem validWordLoop_char (g : Grid) (ord : List Side) :
    ∀ (w : List Char) (lastSide : Option Side),
      validWordLoop g ord lastSide w = true ↔
        ((∀ ch ∈ w, (g.get_side ord ch).isSome) ∧
          List.Chain' (fun a b => g.get_side ord a ≠ g.get_side ord b) w ∧
          (∀ ch ∈ w.head?, g.get_side ord ch ≠ lastSide)) := by
  intro w
  induction w with
  | nil => intro lastSide; simp [validWordLoop]
  | cons ch rest ih =>
    intro lastSide
    cases hgs : g.get_side ord ch with
    | none =>
      simp only [validWordLoop, hgs]
      constructor
      · intro h; exact absurd h (by simp)
      · rintro ⟨h1, _, _⟩
        have := h1 ch (List.mem_cons_self _ _)
        rw [hgs] at this
        simp at this
    | some side =>
      by_cases hlast : some side = lastSide
      · simp only [validWordLoop, hgs, if_pos hlast]
        constructor
        · intro h; exact absurd h (by simp)
        · rintro ⟨_, _, h3⟩
          have := h3 ch (by simp)
          rw [hgs] at this
          exact absurd hlast this
      · simp only [validWordLoop, hgs, if_neg hlast]
        rw [ih (some side)]
        constructor
        · rintro ⟨h1, h2, h3⟩
          refine ⟨?_, ?_, ?_⟩
          · intro x hx
            rcases List.mem_cons.mp hx with rfl | hx
            · rw [hgs]; rfl
            · exact h1 x hx
          · rw [List.chain'_cons']
            refine ⟨?_, h2⟩
            intro y hy
            have := h3 y hy
            rw [hgs]
            exact fun hEq => this hEq.symm
          · intro x hx
            have hx' : ch = x := by simpa using hx
            rw [← hx', hgs]
            exact hlast
        · rintro ⟨h1, h2, _⟩
          rw [List.chain'_cons'] at h2
          obtain ⟨h2a, h2b⟩ := h2
          refine ⟨fun x hx => h1 x (List.mem_cons_of_mem _ hx), h2b, ?_⟩
          intro y hy
          have := h2a y hy
          rw [hgs] at this
          exact fun hEq => this hEq.symm

theorem is_valid_word_char (g : Grid) (ord : List Side) (w : List Char) :
    g.is_valid_word ord w = true ↔
      3 ≤ w.length ∧ (∀ ch ∈ w, (g.get_side ord ch).isSome) ∧
        List.Chain' (fun a b => g.get_side ord a ≠ g.get_side ord b) w := by
  unfold Grid.is_valid_word
  by_cases hlen : w.length < 3
  · rw [if_pos hlen]
    constructor
    · intro h; exact absurd h (by simp)
    · rintro ⟨h, _, _⟩; omega
  · rw [if_neg hlen, validWordLoop_char]
    constructor
    · rintro ⟨h1, h2, _⟩
      exact ⟨by omega, h1, h2⟩
    · rintro ⟨_, h1, h2⟩
      refine ⟨h1, h2, ?_⟩
      intro x hx
      have hx' : x ∈ w := by
        cases w with
        | nil => simp at hx
        | cons a as =>
          have : a = x := by simpa using hx
          rw [← this]; exact List.mem_cons_self _ _
      have := h1 x hx'
      intro hEq
      rw [hEq] at this
      simp at this

/-! ### The sides found by get_side carry letters of the grid -/

theorem lookupSide_mem {words : List (Side × List Char)} {s : Side}
    {ls : List Char} (h : lookupSide words s = some ls) : (s, ls) ∈ words := by
  induction words with
  | nil => simp [lookupSide] at h
  | cons p rest ih =>
    obtain ⟨s', ls'⟩ := p
    simp only [lookupSide] at h
    split at h
    · rename_i hEq
      rw [Option.some_inj] at h
      rw [hEq, h]
      exact List.mem_cons_self _ _
    · exact List.mem_cons_of_mem _ (ih h)

theorem getSideAux_some {words : List (Side × List Char)} {letter : Char}
    {s : Side} :
    ∀ {ord : List Side}, getSideAux words ord letter = some s →
      ∃ ls, lookupSide words s = some ls ∧ letter ∈ ls := by
  intro ord
  induction ord with
  | nil => intro h; simp [getSideAux] at h
  | cons s' rest ih =>
    intro h
    simp only [getSideAux] at h
    cases hlook : lookupSide words s' with
    | none => simp only [hlook] at h; exact ih h
    | some ls =>
      simp only [hlook] at h
      split at h
      · rename_i hmem
        rw [Option.some_inj] at h
        exact ⟨ls, h ▸ hlook, hmem⟩
      · exact ih h

theorem subset_foldl_union (pairs : List (Side × List Char))
    (A : Finset Char) :
    A ⊆ pairs.foldl (fun s p => s ∪ p.2.toFinset) A := by
  induction pairs generalizing A with
  | nil => intro x hx; simpa using hx
  | cons q rest ih =>
    intro x hx
    simp only [List.foldl_cons]
    exact ih _ (Finset.mem_union_left _ hx)

theorem mem_foldl_union {pairs : List (Side × List Char)}
    {p : Side × List Char} (hp : p ∈ pairs) (A : Finset Char) :
    p.2.toFinset ⊆ pairs.foldl (fun s p => s ∪ p.2.toFinset) A := by
  induction pairs generalizing A with
  | nil => simp at hp
  | cons q rest ih =>
    simp only [List.foldl_cons]
    rcases List.mem_cons.mp hp with hp | hp
    · rw [hp]
      exact fun x hx =>
        subset_foldl_union rest _ (Finset.mem_union_right _ hx)
    · exact ih hp _

theorem new_get_side_mem_all_letters {gs : List Char}
    {d : List (List Char)} {mg : Option Nat} {ord : List Side} {ch : Char}
    {s : Side} (h : (Grid.new gs d mg).get_side ord ch = some s) :
    ch ∈ (Grid.new gs d mg).all_letters := by
  obtain ⟨ls, hlook, hmem⟩ := getSideAux_some h
  have hpair : (s, ls) ∈ (Grid.new gs d mg).words := lookupSide_mem hlook
  have hw : (Grid.new gs d mg).words = sidesList.zip (splitComma gs) := rfl
  have ha : (Grid.new gs d mg).all_letters
      = (sidesList.zip (splitComma gs)).foldl
          (fun s p => s ∪ p.2.toFinset) ∅ := rfl
  rw [ha]
  rw [hw] at hpair
  exact mem_foldl_union hpair ∅ (List.mem_toFinset.mpr hmem)

theorem mem_pathChars {x : Char} :
    ∀ {p : List (List Char)}, x ∈ pathChars p ↔ ∃ w ∈ p, x ∈ w := by
  have aux : ∀ (p : List (List Char)) (acc : List Char),
      x ∈ p.foldl (fun acc w => acc ++ w) acc ↔
        x ∈ acc ∨ ∃ w ∈ p, x ∈ w := by
    intro p
    induction p with
    | nil => intro acc; simp
    | cons w ws ih =>
      intro acc
      simp only [List.foldl_cons, ih, List.mem_append, List.mem_cons]
      constructor
      · rintro (⟨h | h⟩ | ⟨u, hu, hx⟩)
        · exact Or.inl h
        · exact Or.inr ⟨w, Or.inl rfl, h⟩
        · exact Or.inr ⟨u, Or.inr hu, hx⟩
      · rintro (h | ⟨u, hu | hu, hx⟩)
        · exact Or.inl (Or.inl h)
        · exact Or.inl (Or.inr (hu ▸ hx))
        · exact Or.inr ⟨u, hu, hx⟩
  intro p
  rw [pathChars, aux p []]
  simp

theorem new_generate_words_letters (gs : List Char) (d : List (List Char))
    (mg : Option Nat) (ord : List Side) :
    ∀ w ∈ (Grid.new gs d mg).generate_words ord,
      w.toFinset ⊆ (Grid.new gs d mg).all_letters := by
  intro w hw x hx
  obtain ⟨_, hvalid⟩ := List.mem_filter.mp hw
  obtain ⟨_, hsome, _⟩ := (is_valid_word_char _ ord w).mp hvalid
  have hx' : x ∈ w := List.mem_toFinset.mp hx
  have := hsome x hx'
  obtain ⟨s, hs⟩ := Option.isSome_iff_exists.mp this
  exact new_get_side_mem_all_letters hs

/-! ### Lifting the loop lemmas to Grid.solve -/

theorem solve_bfs_eq_some {g : Grid} {vw : List (List Char)}
    {path : List (List Char)} (h : g.solve_bfs vw = some path) :
    bfsLoop vw g.all_letters.card g.max_guesses
      (solveMeasure vw.length g.max_guesses (initHeap vw) + 1)
      (initHeap vw) = some (some path) := by
  unfold Grid.solve_bfs at h
  cases hb : bfsLoop vw g.all_letters.card g.max_guesses
      (solveMeasure vw.length g.max_guesses (initHeap vw) + 1)
      (initHeap vw) with
  | none => rw [hb] at h; simp at h
  | some o =>
    rw [hb] at h
    simp only [Option.getD_some] at h
    rw [h]

theorem solve_sound_gen (g : Grid) (ord : List Side)
    (path : List (List Char)) (h : g.solve ord = some path) :
    chainLetters path = g.all_letters ∧ path ≠ [] ∧ path.Nodup ∧
      (∀ w ∈ path, w ∈ g.generate_words ord) ∧
      List.Chain' (fun u v => linked u v = true) path ∧
      path.length ≤ max 1 g.max_guesses := by
  unfold Grid.solve at h
  cases hbfs : g.solve_bfs (g.generate_words ord) with
  | none =>
    simp only [hbfs] at h
    exact Option.noConfusion h
  | some sol =>
    simp only [hbfs] at h
    split at h
    · rename_i hval
      have hsol : sol = path := by simpa using h
      subst hsol
      have hloop := solve_bfs_eq_some hbfs
      have hsound := bfsLoop_sound _ _ (good_initHeap _ _) sol hloop
      obtain ⟨hne, hnd, hmem, hchain, hlen, _⟩ := hsound
      have hletters : chainLetters sol = g.all_letters := by
        unfold Grid.is_solution_valid at hval
        exact of_decide_eq_true hval
      exact ⟨hletters, hne, hnd, hmem, hchain, hlen⟩
    · simp at h

theorem solve_complete_gen (g : Grid) (ord : List Side)
    (hletters : ∀ w ∈ g.generate_words ord, w.toFinset ⊆ g.all_letters)
    (c : List (List Char)) (hc : g.IsSolutionChain ord c)
    (hlen : c.length ≤ max 1 g.max_guesses) :
    ∃ path, g.solve ord = some path ∧ path.length ≤ c.length := by
  obtain ⟨hcne, hcnd, hcmem, hcchain, hccov⟩ := hc
  have hclen1 : 1 ≤ c.length := List.length_pos.mpr hcne
  have hj : takeState c 1 ∈ initHeap (g.generate_words ord) := by
    cases c with
    | nil => exact absurd rfl hcne
    | cons w cs =>
      apply List.mem_map.mpr
      refine ⟨w, hcmem w (List.mem_cons_self _ _), ?_⟩
      show (1, sortDedup w, [w]) = takeState (w :: cs) 1
      have h1 : (w :: cs).take 1 = [w] := rfl
      have h2 : pathChars [w] = w := by simp [pathChars]
      rw [takeState, h1, h2]
  obtain ⟨path, hloop, hplen⟩ := @bfsLoop_complete
    (g.generate_words ord) g.all_letters.card g.max_guesses
    (solveMeasure (g.generate_words ord).length g.max_guesses
      (initHeap (g.generate_words ord)) + 1)
    (initHeap (g.generate_words ord)) c 1
    (Nat.lt_succ_self _) (good_initHeap _ _) hcnd hcmem hcchain
    (by rw [hccov]) hlen (le_refl 1) hclen1 hj
  have hsound := bfsLoop_sound _ _ (good_initHeap _ _) path hloop
  obtain ⟨_, _, hpmem, _, _, hpcard⟩ := hsound
  have hsub : chainLetters path ⊆ g.all_letters := by
    rw [chainLetters_eq_toFinset]
    intro x hx
    obtain ⟨w, hw, hxw⟩ := mem_pathChars.mp (List.mem_toFinset.mp hx)
    exact hletters w (hpmem w hw) (List.mem_toFinset.mpr hxw)
  have hEq : chainLetters path = g.all_letters :=
    Finset.eq_of_subset_of_card_le hsub (by rw [hpcard])
  refine ⟨path, ?_, hplen⟩
  unfold Grid.solve
  have hbfs : g.solve_bfs (g.generate_words ord) = some path := by
    unfold Grid.solve_bfs
    rw [hloop]
    rfl
  simp only [hbfs]
  have hval : g.is_solution_valid path = true := decide_eq_true hEq
  rw [if_pos hval]

/-! ### Iteration-order independence of get_side for duplicate-free grids -/

theorem getSideAux_mem_ord {words : List (Side × List Char)} {letter : Char}
    {s : Side} : ∀ {ord : List Side},
      getSideAux words ord letter = some s → s ∈ ord := by
  intro ord
  induction ord with
  | nil => intro h; simp [getSideAux] at h
  | cons s' rest ih =>
    intro h
    simp only [getSideAux] at h
    cases hlook : lookupSide words s' with
    | none =>
      simp only [hlook] at h
      exact List.mem_cons_of_mem _ (ih h)
    | some ls =>
      simp only [hlook] at h
      split at h
      · rw [Option.some_inj] at h
        rw [← h]
        exact List.mem_cons_self _ _
      · exact List.mem_cons_of_mem _ (ih h)

theorem getSideAux_ne_none {words : List (Side × List Char)} {letter : Char}
    {s : Side} {ls : List Char} (hlook : lookupSide words s = some ls)
    (hmem : letter ∈ ls) :
    ∀ {ord : List Side}, s ∈ ord → getSideAux words ord letter ≠ none := by
  intro ord
  induction ord with
  | nil => intro h; simp at h
  | cons s' rest ih =>
    intro hs
    cases hlook' : lookupSide words s' with
    | none =>
      simp only [getSideAux, hlook']
      have hne : s ≠ s' := by
        intro hEq
        rw [hEq, hlook'] at hlook
        exact Option.noConfusion hlook
      have hrest : s ∈ rest := by
        rcases List.mem_cons.mp hs with h | h
        · exact absurd h hne
        · exact h
      exact ih hrest
    | some ls' =>
      simp only [getSideAux, hlook']
      by_cases hmem' : letter ∈ ls'
      · rw [if_pos hmem']
        exact fun hEq => Option.noConfusion hEq
      · rw [if_neg hmem']
        have hne : s ≠ s' := by
          intro hEq
          rw [hEq, hlook'] at hlook
          rw [Option.some_inj] at hlook
          rw [← hlook] at hmem
          exact hmem' hmem
        have hrest : s ∈ rest := by
          rcases List.mem_cons.mp hs with h | h
          · exact absurd h hne
          · exact h
        exact ih hrest

theorem get_side_ord_congr {g : Grid} (hU : SameSide g)
    {ord1 ord2 : List Side} (hiff : ∀ s, s ∈ ord1 ↔ s ∈ ord2)
    (letter : Char) :
    g.get_side ord1 letter = g.get_side ord2 letter := by
  cases h1 : g.get_side ord1 letter with
  | none =>
    cases h2 : g.get_side ord2 letter with
    | none => rfl
    | some s =>
      obtain ⟨ls, hlook, hmem⟩ := getSideAux_some h2
      have hs2 : s ∈ ord2 := getSideAux_mem_ord h2
      have hs1 : s ∈ ord1 := (hiff s).mpr hs2
      exact absurd h1 (getSideAux_ne_none hlook hmem hs1)
  | some s =>
    cases h2 : g.get_side ord2 letter with
    | none =>
      obtain ⟨ls, hlook, hmem⟩ := getSideAux_some h1
      have hs1 : s ∈ ord1 := getSideAux_mem_ord h1
      have hs2 : s ∈ ord2 := (hiff s).mp hs1
      exact absurd h2 (getSideAux_ne_none hlook hmem hs2)
    | some s2 =>
      obtain ⟨ls1, hlook1, hmem1⟩ := getSideAux_some h1
      obtain ⟨ls2, hlook2, hmem2⟩ := getSideAux_some h2
      have hp1 : (s, ls1) ∈ g.words := lookupSide_mem hlook1
      have hp2 : (s2, ls2) ∈ g.words := lookupSide_mem hlook2
      have hss : s = s2 := hU (s, ls1) hp1 (s2, ls2) hp2 letter hmem1 hmem2
      rw [hss]

theorem validWordLoop_congr {g : Grid} {ord1 ord2 : List Side}
    (h : ∀ ch, g.get_side ord1 ch = g.get_side ord2 ch) :
    ∀ (w : List Char) (last : Option Side),
      validWordLoop g ord1 last w = validWordLoop g ord2 last w := by
  intro w
  induction w with
  | nil => intro last; rfl
  | cons c rest ih =>
    intro last
    simp only [validWordLoop, h c]
    cases g.get_side ord2 c with
    | none => rfl
    | some side =>
      show (if some side = last then false
            else validWordLoop g ord1 (some side) rest)
          = (if some side = last then false
            else validWordLoop g ord2 (some side) rest)
      by_cases hl : some side = last
      · rw [if_pos hl, if_pos hl]
      · rw [if_neg hl, if_neg hl, ih]

theorem solve_ord_congr {g : Grid} (hU : SameSide g)
    {ord1 ord2 : List Side} (hiff : ∀ s, s ∈ ord1 ↔ s ∈ ord2) :
    g.solve ord1 = g.solve ord2 := by
  have hgw : g.generate_words ord1 = g.generate_words ord2 := by
    unfold Grid.generate_words
    apply List.filter_congr
    intro w _
    unfold Grid.is_valid_word
    by_cases hlen : w.length < 3
    · rw [if_pos hlen, if_pos hlen]
    · rw [if_neg hlen, if_neg hlen,
        validWordLoop_congr (get_side_ord_congr hU hiff)]
  unfold Grid.solve
  rw [hgw]

/-! ### Characterising is_valid on constructed grids -/

theorem new_is_valid_char (gs : List Char) (d : List (List Char))
    (mg : Option Nat) :
    (Grid.new gs d mg).is_valid = true ↔
      4 ≤ (splitComma gs).length ∧
        (∀ grp ∈ (splitComma gs).take 4, grp.length = 3) ∧
        (lettersOfGroups ((splitComma gs).take 4)).card = 12 := by
  rcases hsplit : splitComma gs with _ | ⟨a, _ | ⟨b, _ | ⟨c, _ | ⟨d', rest⟩⟩⟩⟩
  · simp [Grid.is_valid, Grid.new, hsplit, sidesList]
  · simp [Grid.is_valid, Grid.new, hsplit, sidesList]
  · simp [Grid.is_valid, Grid.new, hsplit, sidesList]
  · simp [Grid.is_valid, Grid.new, hsplit, sidesList]
  · simp only [Grid.is_valid, Grid.new, hsplit, sidesList, lettersOfGroups,
      List.zip_cons_cons, List.zip_nil_left, List.length_cons,
      List.take_succ_cons, List.take_zero, List.foldl_cons, List.foldl_nil,
      List.all_cons, List.all_nil, List.length_nil, Bool.and_eq_true,
      beq_iff_eq, List.mem_cons]
    constructor
    · rintro ⟨⟨hlen4, ha, hb, hc, hd, _⟩, hcard⟩
      refine ⟨by simp, ?_, hcard⟩
      rintro grp (rfl | rfl | rfl | rfl | hg)
      · exact ha
      · exact hb
      · exact hc
      · exact hd
      · simp at hg
    · rintro ⟨_, hlens, hcard⟩
      refine ⟨⟨trivial, ?_, ?_, ?_, ?_, trivial⟩, hcard⟩
      · exact hlens a (by simp)
      · exact hlens b (by simp)
      · exact hlens c (by simp)
      · exact hlens d' (by simp)

theorem chain'_iff_chainBool {α : Type} (R : α → α → Prop) [DecidableRel R] :
    ∀ l : List α, List.Chain' R l ↔ chainBool (fun a b => decide (R a b)) l = true
  | [] => by simp [chainBool]
  | [a] => by simp [chainBool]
  | a :: b :: rest => by
    rw [List.chain'_cons, chain'_iff_chainBool R (b :: rest)]
    simp [chainBool]

/-! ### Claim theorems -/

/-- Claim C1, counterexample: the coverage test of solve_bfs runs before the
max_guesses prune, so with max_guesses = 0 the solver still returns a
one-word chain whose length exceeds max_guesses.  This falsifies the bound
"the chain's word count is at most max_guesses" as universally stated. -/
theorem solve_sound_cex :
    (Grid.new "abc,def,ghi,jkl".toList ["adgjbehkcfil".toList]
        (some 0)).solve sidesList = some ["adgjbehkcfil".toList] ∧
      ¬ ((["adgjbehkcfil".toList] : List (List Char)).length
          ≤ (Grid.new "abc,def,ghi,jkl".toList ["adgjbehkcfil".toList]
              (some 0)).max_guesses) := by
  constructor
  · decide
  · decide

/-- Claim C1 (amended): whenever solve returns a chain, the union of the
chain's letters equals the grid's full letter set exactly, adjacent words
are head-tail linked, no word occurs twice, and the chain length is at most
max 1 max_guesses (the bound max_guesses itself holds whenever
max_guesses is at least 1; a single-word chain can be returned even when
max_guesses = 0). -/
theorem solve_sound_amended (gs : List Char) (d : List (List Char))
    (mg : Option Nat) (path : List (List Char))
    (h : (Grid.new gs d mg).solve sidesList = some path) :
    chainLetters path = (Grid.new gs d mg).all_letters ∧
      List.Chain' (fun u v => linked u v = true) path ∧
      path.Nodup ∧
      path.length ≤ max 1 (Grid.new gs d mg).max_guesses := by
  obtain ⟨h1, _, h3, _, h5, h6⟩ := solve_sound_gen _ _ _ h
  exact ⟨h1, h5, h3, h6⟩

/-- Witness for claim C1: the amended soundness theorem applied to a
concrete two-word solve. -/
theorem solve_sound_amended_witness :
    (Grid.new "ab,cd".toList ["acb".toList, "bda".toList] none).solve
        sidesList = some ["acb".toList, "bda".toList] ∧
      (chainLetters ["acb".toList, "bda".toList]
          = (Grid.new "ab,cd".toList ["acb".toList, "bda".toList]
              none).all_letters ∧
        List.Chain' (fun u v => linked u v = true)
          ["acb".toList, "bda".toList] ∧
        (["acb".toList, "bda".toList] : List (List Char)).Nodup ∧
        (["acb".toList, "bda".toList] : List (List Char)).length
          ≤ max 1 (Grid.new "ab,cd".toList ["acb".toList, "bda".toList]
              none).max_guesses) :=
  ⟨by decide, solve_sound_amended _ _ _ _ (by decide)⟩

/-- Claim C2: minimality.  If a solution chain of length k within the
max_guesses bound exists, solve returns a chain of length at most k; in
particular when chains of two different lengths exist it never returns the
longer one. -/
theorem solve_minimal (gs : List Char) (d : List (List Char))
    (mg : Option Nat) (c : List (List Char))
    (hc : (Grid.new gs d mg).IsSolutionChain sidesList c)
    (hlen : c.length ≤ (Grid.new gs d mg).max_guesses) :
    ∃ path, (Grid.new gs d mg).solve sidesList = some path ∧
      path.length ≤ c.length :=
  solve_complete_gen _ _ (new_generate_words_letters gs d mg sidesList) c hc
    (le_trans hlen (le_max_right 1 _))

/-- Witness for claim C2: the minimality theorem applied to a concrete
two-word solution chain. -/
theorem solve_minimal_witness :
    (Grid.new "ab,cd".toList ["acb".toList, "bda".toList]
        none).IsSolutionChain sidesList ["acb".toList, "bda".toList] ∧
      ∃ path, (Grid.new "ab,cd".toList ["acb".toList, "bda".toList]
          none).solve sidesList = some path ∧ path.length ≤ 2 := by
  constructor
  · unfold Grid.IsSolutionChain
    refine ⟨by decide, by decide, by decide, ?_, by decide⟩
    exact (chain'_iff_chainBool _ _).mpr (by decide)
  · refine solve_minimal _ _ _ ["acb".toList, "bda".toList] ?_ (by decide)
    unfold Grid.IsSolutionChain
    refine ⟨by decide, by decide, by decide, ?_, by decide⟩
    exact (chain'_iff_chainBool _ _).mpr (by decide)

/-- Claim C3, counterexample: with max_guesses = 0 no chain of length at
most max_guesses exists, yet solve does not return the no-solution value,
so the claimed equivalence fails at this input. -/
theorem solve_none_iff_cex :
    ¬ ((Grid.new "abc,def,ghi,jkl".toList ["adgjbehkcfil".toList]
          (some 0)).solve sidesList = none ↔
        ¬ ∃ c, (Grid.new "abc,def,ghi,jkl".toList ["adgjbehkcfil".toList]
              (some 0)).IsSolutionChain sidesList c ∧
            c.length ≤ (Grid.new "abc,def,ghi,jkl".toList
              ["adgjbehkcfil".toList] (some 0)).max_guesses) := by
  intro h
  have hno : ¬ ∃ c, (Grid.new "abc,def,ghi,jkl".toList
      ["adgjbehkcfil".toList] (some 0)).IsSolutionChain sidesList c ∧
        c.length ≤ (Grid.new "abc,def,ghi,jkl".toList
          ["adgjbehkcfil".toList] (some 0)).max_guesses := by
    rintro ⟨c, hc, hlen⟩
    have h1 : 1 ≤ c.length := List.length_pos.mpr hc.1
    have h0 : (Grid.new "abc,def,ghi,jkl".toList ["adgjbehkcfil".toList]
        (some 0)).max_guesses = 0 := rfl
    rw [h0] at hlen
    omega
  have hnone := h.mpr hno
  have hsome : (Grid.new "abc,def,ghi,jkl".toList ["adgjbehkcfil".toList]
      (some 0)).solve sidesList = some ["adgjbehkcfil".toList] := by decide
  rw [hsome] at hnone
  exact Option.noConfusion hnone

/-- Claim C3 (amended): solve returns the no-solution value if and only if
no legal solution chain of length at most max 1 max_guesses exists (for
max_guesses at least 1 this bound is max_guesses itself; the single
exception is that one-word solutions are found even when max_guesses = 0). -/
theorem solve_none_iff_amended (gs : List Char) (d : List (List Char))
    (mg : Option Nat) :
    (Grid.new gs d mg).solve sidesList = none ↔
      ¬ ∃ c, (Grid.new gs d mg).IsSolutionChain sidesList c ∧
        c.length ≤ max 1 (Grid.new gs d mg).max_guesses := by
  constructor
  · intro hnone
    rintro ⟨c, hc, hlen⟩
    obtain ⟨path, hsome, _⟩ := solve_complete_gen _ _
      (new_generate_words_letters gs d mg sidesList) c hc hlen
    rw [hnone] at hsome
    exact Option.noConfusion hsome
  · intro hno
    cases hs : (Grid.new gs d mg).solve sidesList with
    | none => rfl
    | some path =>
      exfalso
      obtain ⟨h1, h2, h3, h4, h5, h6⟩ := solve_sound_gen _ _ _ hs
      exact hno ⟨path, ⟨h2, h3, h4, h5, h1⟩, h6⟩

/-- Witness for claim C3: the amended equivalence applied to a concrete
grid with an empty dictionary, where solve returns none. -/
theorem solve_none_iff_amended_witness :
    ¬ ∃ c, (Grid.new "abc,def,ghi,jkl".toList [] none).IsSolutionChain
          sidesList c ∧
        c.length ≤ max 1 (Grid.new "abc,def,ghi,jkl".toList []
          none).max_guesses :=
  (solve_none_iff_amended _ _ _).mp (by decide)

/-- Claim C4, counterexample: a five-group grid string still validates,
because Grid::new zips the groups with the four sides and silently drops
the extra group; the claim says any wrong number of comma-separated groups
yields false. -/
theorem is_valid_cex :
    (splitComma "abc,def,ghi,jkl,mno".toList).length = 5 ∧
      (Grid.new "abc,def,ghi,jkl,mno".toList [] none).is_valid = true := by
  constructor
  · decide
  · decide

/-- Claim C4 (amended): is_valid on a constructed grid holds if and only
if the input string has at least 4 comma-separated groups, the first four
groups each have exactly 3 letters, and the distinct letters of the first
four groups number exactly 12; groups beyond the fourth are ignored. -/
theorem is_valid_iff_amended (gs : List Char) (d : List (List Char))
    (mg : Option Nat) :
    (Grid.new gs d mg).is_valid = true ↔
      4 ≤ (splitComma gs).length ∧
        (∀ grp ∈ (splitComma gs).take 4, grp.length = 3) ∧
        (lettersOfGroups ((splitComma gs).take 4)).card = 12 :=
  new_is_valid_char gs d mg

/-- Witness for claim C4: the amended equivalence applied to the standard
valid grid string. -/
theorem is_valid_iff_amended_witness :
    (Grid.new "abc,def,ghi,jkl".toList [] none).is_valid = true :=
  (is_valid_iff_amended _ _ _).mpr (by decide)

/-- Claim C5: is_valid_word holds exactly when the word has at least 3
letters, every letter lies on some side of the grid (get_side finds a
side), and no two consecutive letters lie on the same side. -/
theorem is_valid_word_iff (g : Grid) (ord : List Side) (w : List Char) :
    g.is_valid_word ord w = true ↔
      3 ≤ w.length ∧ (∀ ch ∈ w, (g.get_side ord ch).isSome) ∧
        List.Chain' (fun a b => g.get_side ord a ≠ g.get_side ord b) w :=
  is_valid_word_char g ord w

/-- Witness for claim C5: the equivalence applied to a concrete legal
word. -/
theorem is_valid_word_iff_witness :
    (Grid.new "abc,def,ghi,jkl".toList [] none).is_valid_word sidesList
      "beg".toList = true :=
  (is_valid_word_iff _ _ _).mpr
    ⟨by decide, by decide, (chain'_iff_chainBool _ _).mpr (by decide)⟩

/-- Claim C6: generate_words is the order-preserving pure filter of the
dictionary by is_valid_word — a sublist of the dictionary containing
exactly the legal words — and on dictionary beg, ace, xyz, fij with grid
abc,def,ghi,jkl it yields exactly beg, fij. -/
theorem generate_words_props (g : Grid) (ord : List Side) :
    (g.generate_words ord).Sublist g.dictionary ∧
      (∀ w, w ∈ g.generate_words ord ↔
        w ∈ g.dictionary ∧ g.is_valid_word ord w = true) ∧
      (Grid.new "abc,def,ghi,jkl".toList
          ["beg".toList, "ace".toList, "xyz".toList, "fij".toList]
          none).generate_words sidesList
        = ["beg".toList, "fij".toList] := by
  refine ⟨List.filter_sublist _, ?_, by decide⟩
  intro w
  unfold Grid.generate_words
  exact List.mem_filter

/-- Witness for claim C6: the membership characterisation applied to a
concrete word. -/
theorem generate_words_props_witness :
    "beg".toList ∈ (Grid.new "abc,def,ghi,jkl".toList ["beg".toList]
      none).generate_words sidesList :=
  ((generate_words_props _ sidesList).2.1 _).mpr (by decide)

/-- Claim C7, counterexample: the result of solve can depend on the
iteration order of the side map when a letter occurs on two sides.  On the
grid string ax,xb the letter x lies on both stored sides, and the word xab
is classified as legal under one iteration order but illegal under
another, so two runs can disagree. -/
theorem solve_det_cex :
    (Grid.new "ax,xb".toList ["xab".toList] none).solve
        [Side.Top, Side.Right, Side.Bottom, Side.Left]
      ≠ (Grid.new "ax,xb".toList ["xab".toList] none).solve
        [Side.Right, Side.Top, Side.Bottom, Side.Left] := by
  decide

/-- Claim C7 (amended): whenever no letter occurs on two different sides
of the stored map — in particular for every grid with 12 distinct letters
— solve is independent of the HashMap iteration order, so two runs on the
same grid string, dictionary and max_guesses give identical results. -/
theorem solve_det_amended (gs : List Char) (d : List (List Char))
    (mg : Option Nat) (ord1 ord2 : List Side)
    (hU : SameSide (Grid.new gs d mg))
    (hiff : ∀ s, s ∈ ord1 ↔ s ∈ ord2) :
    (Grid.new gs d mg).solve ord1 = (Grid.new gs d mg).solve ord2 :=
  solve_ord_congr hU hiff

/-- Witness for claim C7: the amended determinism theorem applied to a
concrete grid and two opposite iteration orders. -/
theorem solve_det_amended_witness :
    SameSide (Grid.new "abc,def,ghi,jkl".toList ["beg".toList] none) ∧
      (Grid.new "abc,def,ghi,jkl".toList ["beg".toList] none).solve sidesList
        = (Grid.new "abc,def,ghi,jkl".toList ["beg".toList] none).solve
            [Side.Left, Side.Bottom, Side.Right, Side.Top] := by
  constructor
  · unfold SameSide
    decide
  · exact solve_det_amended _ _ _ _ _ (by unfold SameSide; decide)
      (fun s => by cases s <;> simp [sidesList])

/-- Claim C8: termination.  Run with the fuel solve_bfs allots, the search
loop always reaches a definitive answer — a full-coverage chain or the
exhausted-heap no-solution value — and solve_bfs returns exactly that
answer; the fuel-exhaustion branch is unreachable. -/
theorem search_terminates (g : Grid) (vw : List (List Char)) :
    bfsLoop vw g.all_letters.card g.max_guesses
      (solveMeasure vw.length g.max_guesses (initHeap vw) + 1)
      (initHeap vw) = some (g.solve_bfs vw) := by
  have h := @bfsLoop_isSome vw g.all_letters.card g.max_guesses
    (solveMeasure vw.length g.max_guesses (initHeap vw) + 1)
    (initHeap vw) (Nat.lt_succ_self _)
  unfold Grid.solve_bfs
  cases hb : bfsLoop vw g.all_letters.card g.max_guesses
      (solveMeasure vw.length g.max_guesses (initHeap vw) + 1)
      (initHeap vw) with
  | none => rw [hb] at h; simp at h
  | some o => rfl

/-- Claim C9, counterexample: main uppercases only the grid string, never
the dictionary, so the Grid does not hold uppercased words and legality
classification depends on the case of the input words: the lowercase word
beg is rejected against the uppercased grid while BEG is accepted. -/
theorem dictionary_normalized_cex :
    (mainGame "abc,def,ghi,jkl".toList ["beg".toList] none).dictionary
        ≠ ["beg".toList.map Char.toUpper] ∧
      (mainGame "abc,def,ghi,jkl".toList ["beg".toList]
          none).generate_words sidesList = [] ∧
      (mainGame "abc,def,ghi,jkl".toList ["beg".toList.map Char.toUpper]
          none).generate_words sidesList
        = ["beg".toList.map Char.toUpper] := by
  refine ⟨by decide, by decide, by decide⟩

/-- Claim C9 (amended): the Grid stores the dictionary exactly as given,
with no case normalization; main uppercases only the grid string, so word
legality classification is case-sensitive in the dictionary words. -/
theorem dictionary_unnormalized (gs : List Char) (d : List (List Char))
    (mg : Option Nat) :
    (mainGame gs d mg).dictionary = d ∧
      mainGame gs d mg = Grid.new (gs.map Char.toUpper) d mg :=
  ⟨rfl, rfl⟩

/-- Claim C10: no unwrap in solve_bfs can panic.  Every legal word has at
least 3 letters and hence a first and a last character; every initial heap
state satisfies the invariant Good (in particular its path is a nonempty
list of legal words), expansion preserves Good, and for any Good state the
options unwrapped by the expansion guard — the last word of the path, its
last character, and the first character of each candidate word — are all
present. -/
theorem no_failing_unwraps (gs : List Char) (d : List (List Char))
    (mg : Option Nat) :
    (∀ w ∈ (Grid.new gs d mg).generate_words sidesList,
        3 ≤ w.length ∧ w.head?.isSome ∧ w.getLast?.isSome) ∧
      (∀ s ∈ initHeap ((Grid.new gs d mg).generate_words sidesList),
        Good ((Grid.new gs d mg).generate_words sidesList)
          (Grid.new gs d mg).max_guesses s) ∧
      (∀ s : BState,
        Good ((Grid.new gs d mg).generate_words sidesList)
            (Grid.new gs d mg).max_guesses s →
          s.1 < (Grid.new gs d mg).max_guesses →
          ∀ x ∈ expandState ((Grid.new gs d mg).generate_words sidesList)
              s.1 s.2.1 s.2.2,
            Good ((Grid.new gs d mg).generate_words sidesList)
              (Grid.new gs d mg).max_guesses x) ∧
      (∀ s : BState,
        Good ((Grid.new gs d mg).generate_words sidesList)
            (Grid.new gs d mg).max_guesses s →
          ∃ lw c, s.2.2.getLast? = some lw ∧ lw.getLast? = some c) := by
  have hwords : ∀ w ∈ (Grid.new gs d mg).generate_words sidesList,
      3 ≤ w.length ∧ w.head?.isSome ∧ w.getLast?.isSome := by
    intro w hw
    obtain ⟨_, hvalid⟩ := List.mem_filter.mp hw
    obtain ⟨hlen, _, _⟩ := (is_valid_word_char _ sidesList w).mp hvalid
    have hne : w ≠ [] := by
      intro hEq
      rw [hEq] at hlen
      simp at hlen
    refine ⟨hlen, ?_, ?_⟩
    · cases w with
      | nil => exact absurd rfl hne
      | cons a as => rfl
    · rw [List.getLast?_isSome]
      exact hne
  refine ⟨hwords, good_initHeap _ _, ?_, ?_⟩
  · intro s hs hlt x hx
    exact good_expandState hs hlt x hx
  · intro s hs
    obtain ⟨hne, _, _, hmem, _, _, _⟩ := hs
    have hlast : s.2.2.getLast?.isSome := by
      rw [List.getLast?_isSome]
      exact hne
    obtain ⟨lw, hlw⟩ := Option.isSome_iff_exists.mp hlast
    have hlwmem : lw ∈ s.2.2 := List.mem_of_mem_getLast? hlw
    obtain ⟨_, _, hlwlast⟩ := hwords lw (hmem lw hlwmem)
    obtain ⟨c, hc⟩ := Option.isSome_iff_exists.mp hlwlast
    exact ⟨lw, c, hlw, hc⟩

/-- Witness for claim C10: the no-panic facts applied to a concrete grid,
legal word and reachable search state. -/
theorem no_failing_unwraps_witness :
    (3 ≤ ("beg".toList).length ∧ ("beg".toList).head?.isSome
        ∧ ("beg".toList).getLast?.isSome) ∧
      ∃ lw c, ([("beg".toList)] : List (List Char)).getLast? = some lw ∧
        lw.getLast? = some c := by
  constructor
  · exact (no_failing_unwraps "abc,def,ghi,jkl".toList ["beg".toList]
      none).1 _ (by decide)
  · refine (no_failing_unwraps "abc,def,ghi,jkl".toList ["beg".toList]
      none).2.2.2 (1, sortDedup "beg".toList, ["beg".toList]) ?_
    unfold Good
    refine ⟨by decide, by decide, by decide, by decide, ?_, by decide,
      by decide⟩
    exact (chain'_iff_chainBool _ _).mpr (by decide)
